import Mathlib

/-
Verification of the course-content generation pipeline in agent_streamlit.py.

The development shallowly embeds the data model (pydantic classes, lines
67-154 of the source) and the concurrent fan-out coordinator
CourseContentGenerator.forward (lines 157-197).  The coordinator runs the
per-skill adapter calls of one module on a ThreadPoolExecutor and collects
the results with as_completed, so the only nondeterminism is the order in
which finished tasks are collected; we model it by an explicit schedule
parameter giving, for each module, the completion order of its task
indices.  Thread-level facts (the max_workers bound, the per-module join
barrier) are modelled by a small pool state machine and an event-trace
model further below.
-/

namespace RebootedAI

/-- Database bookkeeping metadata carried by every content block: the fields
of the shared pydantic base class at source lines 94-104.  All of them are
optional with defaults so the language model does not have to produce them.
Timestamps are modelled as natural numbers fed in through a now parameter. -/
structure BaseMeta where
  id : Option Int
  is_complete : Option Bool
  module_id : Option Int
  created_at : Option Nat
  updated_at : Option Nat
deriving DecidableEq

/-- Defaults pydantic applies when the model output omits the metadata
fields (source lines 99-104): id = 1, isComplete = true, moduleId = 1 and
both timestamps set to the current time. -/
def defaultMeta (now : Nat) : BaseMeta :=
  { id := some 1, is_complete := some true, module_id := some 1,
    created_at := some now, updated_at := some now }

/-- Tagged union of TextContentOut (lines 109-112) and QuestionContentOut
(lines 117-123); the type discriminator of the source is the constructor. -/
inductive ContentBlock where
  | text (meta : BaseMeta) (title : String) (body : String)
  | question (meta : BaseMeta) (title : String) (question_text : String)
      (options : List String) (correct_answer : String) (user_answer : Option String)
deriving DecidableEq

/-- Value of the literal type discriminator field of a block. -/
def ContentBlock.type : ContentBlock → String
  | .text _ _ _ => "Text"
  | .question _ _ _ _ _ _ => "Question"

/-- Bookkeeping metadata of a block. -/
def ContentBlock.meta : ContentBlock → BaseMeta
  | .text m _ _ => m
  | .question m _ _ _ _ _ => m

/-- Options of a question block (empty for a text block). -/
def ContentBlock.options : ContentBlock → List String
  | .text _ _ _ => []
  | .question _ _ _ opts _ _ => opts

/-- Correct answer of a question block (empty for a text block). -/
def ContentBlock.correct_answer : ContentBlock → String
  | .text _ _ _ => ""
  | .question _ _ _ _ ca _ => ca

/-- Error raised when the remote model output cannot be parsed or validated
against the requested shape (the adapter failure mode of the pipeline). -/
structure GenerationFormatError where
  message : String
deriving DecidableEq

/-- Output of the grouping stage, source lines 67-69. -/
structure Module where
  module_name : String
  skills : List String
deriving DecidableEq

/-- One module plus every content block generated for its skills,
source lines 147-150. -/
structure ModuleContentBundle where
  module_name : String
  content_blocks : List ContentBlock
deriving DecidableEq

/-- Full course payload, source lines 152-154. -/
structure CourseContentResult where
  modules : List ModuleContentBundle
deriving DecidableEq

/-- The language-model call adapter for one skill: given the module name and
the skill item it returns the parsed list of content blocks, or fails with a
GenerationFormatError.  This is the boundary behind
ContentGenerator.forward (lines 138-142), treated as a black box. -/
abbrev Adapter : Type :=
  String → String → Except GenerationFormatError (List ContentBlock)

/-- Outcomes of the per-skill tasks of one module: one adapter call per
skill, in skill order, exactly as the submit loop of lines 174 and 178-181
creates one future per (module_name, skill) pair. -/
def taskResults (A : Adapter) (m : Module) :
    List (Except GenerationFormatError (List ContentBlock)) :=
  m.skills.map (fun s => A m.module_name s)

/-- Blocks carried by a successful task outcome, empty on failure. -/
def blocksOf : Except GenerationFormatError (List ContentBlock) → List ContentBlock
  | .ok bs => bs
  | .error _ => []

/-- Collection loop of lines 183-187: futures are consumed in completion
order (the schedule sigma of task indices); the first failed task re-raises
its error, otherwise the returned block lists are concatenated in
collection order. -/
def collect (results : List (Except GenerationFormatError (List ContentBlock))) :
    List Nat → Except GenerationFormatError (List ContentBlock)
  | [] => .ok []
  | i :: rest =>
    match results.getD i (.ok []) with
    | .error e => .error e
    | .ok bs =>
      match collect results rest with
      | .error e => .error e
      | .ok more => .ok (bs ++ more)

/-- Loop body of CourseContentGenerator.forward (lines 172-194): modules are
processed sequentially; for the module at position i the tasks are collected
in the completion order sched i; each module yields one bundle carrying its
name, appended in module order. -/
def forwardGo (A : Adapter) (sched : Nat → List Nat) :
    Nat → List Module → Except GenerationFormatError (List ModuleContentBundle)
  | _, [] => .ok []
  | i, m :: ms =>
    match collect (taskResults A m) (sched i) with
    | .error e => .error e
    | .ok blocks =>
      match forwardGo A sched (i + 1) ms with
      | .error e => .error e
      | .ok rest => .ok ({ module_name := m.module_name, content_blocks := blocks } :: rest)

/-- CourseContentGenerator.forward (lines 169-197), parameterised by the
completion-order schedule of each module's thread pool. -/
def forward (A : Adapter) (sched : Nat → List Nat) (modules : List Module) :
    Except GenerationFormatError CourseContentResult :=
  match forwardGo A sched 0 modules with
  | .error e => .error e
  | .ok bundles => .ok { modules := bundles }

/-- A schedule is a possible as_completed order when, for every module, it
is a permutation of that module's task indices. -/
def validSched (sched : Nat → List Nat) (modules : List Module) : Prop :=
  ∀ i, (h : i < modules.length) → (sched i).Perm (List.range (modules[i].skills.length))

/-- Blocks of the task with index t of module m (empty outside the range). -/
def taskBlocks (A : Adapter) (m : Module) (t : Nat) : List ContentBlock :=
  blocksOf ((taskResults A m).getD t (.ok []))

/-- Canonical bundle of module m under collection order sigma. -/
def bundleFor (A : Adapter) (m : Module) (σ : List Nat) : ModuleContentBundle :=
  { module_name := m.module_name, content_blocks := (σ.map (taskBlocks A m)).flatten }

/-- Total number of blocks the adapter returns across the skills of m. -/
def moduleBlockCount (A : Adapter) (m : Module) : Nat :=
  (m.skills.map (fun s => (blocksOf (A m.module_name s)).length)).sum

/-- Stub adapter returning one text block per skill, used for the concrete
end-to-end scenario of the spec. -/
def stubAdapter (now : Nat) : Adapter :=
  fun _name s => .ok [ContentBlock.text (defaultMeta now) s ("Content for " ++ s)]

/-- Stub adapter whose every call fails to parse. -/
def errorAdapter : Adapter :=
  fun _name _s => .error { message := "unparseable output" }

/-- Single web module of the end-to-end scenario. -/
def webModules : List Module :=
  [{ module_name := "Web Basics", skills := ["HTML basics", "CSS basics"] }]

/-- Worker-pool capacity of the fan-out: the max_workers argument of the
ThreadPoolExecutor at source line 177.  It is a literal constant, not a
function of the module or of its skill count. -/
def maxWorkers : Nat := 5

/-- State of one module's thread pool: task indices not yet started (in
submission order), tasks currently executing on a worker, and tasks
finished (in completion order). -/
structure PoolState where
  pending : List Nat
  running : List Nat
  done : List Nat
deriving DecidableEq

/-- Pool immediately after the submit loop of lines 178-181 handed the
pool its k tasks: nothing has started yet. -/
def initPool (k : Nat) : PoolState :=
  { pending := List.range k, running := [], done := [] }

/-- Steps of the executor: a worker may pick up the next pending task only
while fewer than maxWorkers tasks are executing (the executor never has
more than max_workers worker threads, each running one task at a time),
and any executing task may finish. -/
inductive PoolStep : PoolState → PoolState → Prop
  | start (i : Nat) (rest : List Nat) (s : PoolState) :
      s.pending = i :: rest → s.running.length < maxWorkers →
      PoolStep s { pending := rest, running := s.running ++ [i], done := s.done }
  | finish (i : Nat) (s : PoolState) :
      i ∈ s.running →
      PoolStep s { pending := s.pending, running := s.running.erase i, done := s.done ++ [i] }

/-- States the pool of a module with k tasks can reach. -/
def PoolReachable (k : Nat) (s : PoolState) : Prop :=
  Relation.ReflTransGen PoolStep (initPool k) s

/-- Observable scheduling events of one run of
CourseContentGenerator.forward: pool creation and teardown of the with
block at line 177 for the module at position m, and start and end of the
adapter call for task t of that module. -/
inductive Event where
  | poolCreate (m : Nat)
  | callStart (m : Nat) (t : Nat)
  | callEnd (m : Nat) (t : Nat)
  | poolDestroy (m : Nat)
deriving DecidableEq

/-- Module position an event belongs to. -/
def Event.moduleIdx : Event → Nat
  | .poolCreate m => m
  | .callStart m _ => m
  | .callEnd m _ => m
  | .poolDestroy m => m

/-- Events of one iteration of the module loop: the with block creates the
pool, the pool interleaves the module's call events in some order, and
leaving the with block tears the pool down. -/
def moduleEvents (body : Nat → List Event) (i : Nat) : List Event :=
  Event.poolCreate i :: (body i ++ [Event.poolDestroy i])

/-- Event trace of a whole forward run over n modules: the module loop is
sequential, so the per-module segments are concatenated in module order. -/
def forwardTrace (n : Nat) (body : Nat → List Event) : List Event :=
  (List.range n).flatMap (moduleEvents body)

/-- The interleaving chosen by the pool of module i consists of call events
of module i only. -/
def bodyOk (n : Nat) (body : Nat → List Event) : Prop :=
  ∀ i, i < n → ∀ e ∈ body i, ∃ t, e = Event.callStart i t ∨ e = Event.callEnd i t

/-- The join barrier: the collection loop of lines 185-187 consumes every
future of the module, and leaving the with block additionally joins the
pool, so the segment of module i contains the end event of each of its
skillCount i tasks. -/
def bodyComplete (n : Nat) (skillCount : Nat → Nat) (body : Nat → List Event) : Prop :=
  ∀ i, i < n → ∀ t, t < skillCount i → Event.callEnd i t ∈ body i

/-- Python object store for the input modules: forward receives references
into this heap and the embedding threads it through the loop explicitly to
make the frame property statable. -/
structure PyState where
  heap : List Module
deriving DecidableEq

/-- State-passing variant of the module loop: identical control flow to
forwardGo; the state is threaded through untouched because the source loop
(lines 172-194) only reads module.module_name and module.skills and never
assigns to a module attribute. -/
def forwardGoSt (A : Adapter) (sched : Nat → List Nat) :
    Nat → PyState → List Module →
      Except GenerationFormatError (PyState × List ModuleContentBundle)
  | _, s, [] => .ok (s, [])
  | i, s, m :: ms =>
    match collect (taskResults A m) (sched i) with
    | .error e => .error e
    | .ok blocks =>
      match forwardGoSt A sched (i + 1) s ms with
      | .error e => .error e
      | .ok pr =>
        .ok (pr.1, { module_name := m.module_name, content_blocks := blocks } :: pr.2)

/-- State-passing form of CourseContentGenerator.forward over the heap of
input modules. -/
def forwardSt (A : Adapter) (sched : Nat → List Nat) (s : PyState) :
    Except GenerationFormatError (PyState × CourseContentResult) :=
  match forwardGoSt A sched 0 s s.heap with
  | .error e => .error e
  | .ok pr => .ok (pr.1, { modules := pr.2 })

/-- Validation the system performs when accepting a QuestionContentOut
(source lines 117-123).  The pydantic model declares only the field types:
title, questionText and correctAnswer are strings, options a list of
strings, userAnswer an optional string; no validator relates
correct_answer to options and no constraint requires options to be
non-empty, so every well-typed field assignment is accepted and the
metadata defaults of the base class are filled in.  A raw output whose
fields fail the type checks would surface upstream as a
GenerationFormatError; the typed embedding takes the fields already
type-checked. -/
def validateQuestion (title question_text : String) (options : List String)
    (correct_answer : String) (user_answer : Option String) (now : Nat) :
    Except GenerationFormatError ContentBlock :=
  .ok (.question (defaultMeta now) title question_text options correct_answer user_answer)

/-- Question block with an empty option list and a correct answer outside
the options. -/
def badQuestion : ContentBlock :=
  .question (defaultMeta 0) "Quiz" "Pick one" [] "A" none

/-- Blocks the stub adapter produces for the two web skills. -/
def htmlBlock : ContentBlock :=
  .text (defaultMeta 0) "HTML basics" "Content for HTML basics"

/-- Second stub block of the web scenario. -/
def cssBlock : ContentBlock :=
  .text (defaultMeta 0) "CSS basics" "Content for CSS basics"

/-- Expected result of the web scenario when task 0 is collected first. -/
def webResult : CourseContentResult :=
  { modules := [{ module_name := "Web Basics", content_blocks := [htmlBlock, cssBlock] }] }

/-- Expected result of the web scenario when task 1 is collected first. -/
def webResultRev : CourseContentResult :=
  { modules := [{ module_name := "Web Basics", content_blocks := [cssBlock, htmlBlock] }] }

/-- Two one-skill modules used to show the owning-module reference is a
constant default. -/
def twoModules : List Module :=
  [{ module_name := "Module A", skills := ["s1"] },
   { module_name := "Module B", skills := ["s2"] }]

/-- Stub block generated for the skill of Module A. -/
def s1Block : ContentBlock := .text (defaultMeta 0) "s1" "Content for s1"

/-- Stub block generated for the skill of Module B. -/
def s2Block : ContentBlock := .text (defaultMeta 0) "s2" "Content for s2"

/-- Concrete pool interleaving used to instantiate the trace model: each
module runs its single call to completion. -/
def demoBody : Nat → List Event :=
  fun i => [Event.callStart i 0, Event.callEnd i 0]

lemma collect_eq_ok_of (results : List (Except GenerationFormatError (List ContentBlock)))
    (σ : List Nat) (h : ∀ j ∈ σ, (results.getD j (.ok [])).isOk = true) :
    collect results σ = .ok ((σ.map (fun j => blocksOf (results.getD j (.ok [])))).flatten) := by
  induction σ with
  | nil => rfl
  | cons i rest ih =>
    have hi := h i (List.mem_cons_self i rest)
    have hrest : ∀ j ∈ rest, (results.getD j (.ok [])).isOk = true :=
      fun j hj => h j (List.mem_cons_of_mem i hj)
    cases hres : results.getD i (.ok []) with
    | error e =>
      rw [hres] at hi
      exact Bool.noConfusion hi
    | ok bs =>
      simp only [collect, hres, ih hrest, List.map_cons, List.flatten_cons, blocksOf]

lemma collect_ok_eq (results : List (Except GenerationFormatError (List ContentBlock)))
    (σ : List Nat) (bs : List ContentBlock) (h : collect results σ = .ok bs) :
    bs = (σ.map (fun j => blocksOf (results.getD j (.ok [])))).flatten := by
  induction σ generalizing bs with
  | nil =>
    simp only [collect] at h
    cases h
    rfl
  | cons i rest ih =>
    simp only [collect] at h
    cases hres : results.getD i (.ok []) with
    | error e => rw [hres] at h; cases h
    | ok b =>
      rw [hres] at h
      cases hrest : collect results rest with
      | error e => rw [hrest] at h; cases h
      | ok more =>
        rw [hrest] at h
        cases h
        rw [ih more hrest, List.map_cons, List.flatten_cons, hres]
        rfl

lemma collect_error_of (results : List (Except GenerationFormatError (List ContentBlock)))
    (σ : List Nat) (j : Nat) (hj : j ∈ σ)
    (hfail : (results.getD j (.ok [])).isOk = false) :
    ∃ e, collect results σ = .error e ∧ Except.error e ∈ results := by
  induction σ with
  | nil => cases hj
  | cons i rest ih =>
    cases hres : results.getD i (.ok []) with
    | error e =>
      refine ⟨e, by simp only [collect, hres], ?_⟩
      have hlt : i < results.length := by
        by_contra hge
        rw [List.getD_eq_default results (.ok []) (Nat.le_of_not_lt hge)] at hres
        cases hres
      rw [List.getD_eq_getElem results (.ok []) hlt] at hres
      exact hres ▸ List.getElem_mem hlt
    | ok b =>
      have hjrest : j ∈ rest := by
        rcases List.mem_cons.mp hj with rfl | hr
        · rw [hres] at hfail
          exact Bool.noConfusion hfail
        · exact hr
      obtain ⟨e, he, hmem⟩ := ih hjrest
      exact ⟨e, by simp only [collect, hres, he], hmem⟩

lemma taskResults_length (A : Adapter) (m : Module) :
    (taskResults A m).length = m.skills.length := by
  simp [taskResults]

lemma collect_isOk_of_tasks (A : Adapter) (m : Module) (σ : List Nat)
    (hok : ∀ s ∈ m.skills, (A m.module_name s).isOk = true) :
    ∀ j ∈ σ, ((taskResults A m).getD j (.ok [])).isOk = true := by
  intro j _
  by_cases hlt : j < (taskResults A m).length
  · rw [List.getD_eq_getElem _ (.ok []) hlt]
    have hsl : j < m.skills.length := by simpa [taskResults] using hlt
    simp only [taskResults]
    rw [List.getElem_map]
    exact hok _ (List.getElem_mem hsl)
  · rw [List.getD_eq_default _ (.ok []) (Nat.le_of_not_lt hlt)]
    rfl

lemma forwardGo_ok_of (A : Adapter) (sched : Nat → List Nat) (i₀ : Nat) (ms : List Module)
    (hok : ∀ m ∈ ms, ∀ s ∈ m.skills, (A m.module_name s).isOk = true) :
    ∃ bs, forwardGo A sched i₀ ms = .ok bs := by
  induction ms generalizing i₀ with
  | nil => exact ⟨[], rfl⟩
  | cons m ms' ih =>
    have hm := hok m (List.mem_cons_self m ms')
    have hcol := collect_eq_ok_of (taskResults A m) (sched i₀)
      (collect_isOk_of_tasks A m (sched i₀) hm)
    obtain ⟨rest, hrest⟩ := ih (i₀ + 1)
      (fun m' hm' s hs => hok m' (List.mem_cons_of_mem m hm') s hs)
    exact ⟨{ module_name := m.module_name,
             content_blocks := ((sched i₀).map
               (fun j => blocksOf ((taskResults A m).getD j (Except.ok [])))).flatten } :: rest,
      by simp only [forwardGo, hcol, hrest]⟩

lemma forwardGo_ok_length (A : Adapter) (sched : Nat → List Nat) (i₀ : Nat)
    (ms : List Module) (bs : List ModuleContentBundle)
    (h : forwardGo A sched i₀ ms = .ok bs) : bs.length = ms.length := by
  induction ms generalizing i₀ bs with
  | nil =>
    simp only [forwardGo] at h
    cases h
    rfl
  | cons m ms' ih =>
    simp only [forwardGo] at h
    cases hcol : collect (taskResults A m) (sched i₀) with
    | error e => rw [hcol] at h; cases h
    | ok blocks =>
      rw [hcol] at h
      cases hrec : forwardGo A sched (i₀ + 1) ms' with
      | error e => rw [hrec] at h; cases h
      | ok rest =>
        rw [hrec] at h
        cases h
        simp [ih (i₀ + 1) rest hrec]

lemma forwardGo_ok_names (A : Adapter) (sched : Nat → List Nat) (i₀ : Nat)
    (ms : List Module) (bs : List ModuleContentBundle)
    (h : forwardGo A sched i₀ ms = .ok bs) :
    bs.map ModuleContentBundle.module_name = ms.map Module.module_name := by
  induction ms generalizing i₀ bs with
  | nil =>
    simp only [forwardGo] at h
    cases h
    rfl
  | cons m ms' ih =>
    simp only [forwardGo] at h
    cases hcol : collect (taskResults A m) (sched i₀) with
    | error e => rw [hcol] at h; cases h
    | ok blocks =>
      rw [hcol] at h
      cases hrec : forwardGo A sched (i₀ + 1) ms' with
      | error e => rw [hrec] at h; cases h
      | ok rest =>
        rw [hrec] at h
        cases h
        simp [ih (i₀ + 1) rest hrec]

lemma forwardGo_ok_getD (A : Adapter) (sched : Nat → List Nat) (i₀ : Nat)
    (ms : List Module) (bs : List ModuleContentBundle)
    (h : forwardGo A sched i₀ ms = .ok bs) (j : Nat) (hj : j < ms.length) :
    bs.getD j { module_name := "", content_blocks := [] } =
      bundleFor A (ms.getD j { module_name := "", skills := [] }) (sched (i₀ + j)) := by
  induction ms generalizing i₀ j bs with
  | nil => cases hj
  | cons m ms' ih =>
    simp only [forwardGo] at h
    cases hcol : collect (taskResults A m) (sched i₀) with
    | error e => rw [hcol] at h; cases h
    | ok blocks =>
      rw [hcol] at h
      cases hrec : forwardGo A sched (i₀ + 1) ms' with
      | error e => rw [hrec] at h; cases h
      | ok rest =>
        rw [hrec] at h
        cases h
        cases j with
        | zero =>
          simp only [List.getD_cons_zero, Nat.add_zero]
          have hblocks := collect_ok_eq (taskResults A m) (sched i₀) blocks hcol
          simp only [bundleFor, taskBlocks]
          rw [hblocks]
          rfl
        | succ j' =>
          simp only [List.getD_cons_succ]
          have hj' : j' < ms'.length := Nat.lt_of_succ_lt_succ hj
          have := ih (i₀ + 1) rest hrec j' hj'
          rw [this]
          have harith : i₀ + 1 + j' = i₀ + (j' + 1) := by omega
          rw [harith]

lemma forwardGo_error_of (A : Adapter) (sched : Nat → List Nat) (i₀ : Nat)
    (ms : List Module)
    (hσ : ∀ j, (hj : j < ms.length) → (sched (i₀ + j)).Perm (List.range (ms[j].skills.length)))
    (hfail : ∃ m ∈ ms, ∃ s ∈ m.skills, (A m.module_name s).isOk = false) :
    ∃ e, forwardGo A sched i₀ ms = .error e ∧
      ∃ m ∈ ms, ∃ s ∈ m.skills, A m.module_name s = .error e := by
  induction ms generalizing i₀ with
  | nil => obtain ⟨m, hm, _⟩ := hfail; cases hm
  | cons m ms' ih =>
    by_cases hm : ∃ s ∈ m.skills, (A m.module_name s).isOk = false
    · obtain ⟨s, hs, hbad⟩ := hm
      obtain ⟨t, ht, hts⟩ := List.mem_iff_getElem.mp hs
      have htR : t < (taskResults A m).length := by rw [taskResults_length]; exact ht
      have hgetD : (taskResults A m).getD t (.ok []) = A m.module_name m.skills[t] := by
        rw [List.getD_eq_getElem _ (.ok []) htR]
        simp [taskResults]
      have hfailD : ((taskResults A m).getD t (.ok [])).isOk = false := by
        rw [hgetD, hts]
        exact hbad
      have hσ0 := hσ 0 (Nat.succ_pos ms'.length)
      rw [Nat.add_zero] at hσ0
      have hmem : t ∈ sched i₀ := by
        have : t ∈ List.range ((m :: ms')[0].skills.length) := by
          rw [List.mem_range]
          simpa using ht
        exact (hσ0.mem_iff).mpr this
      obtain ⟨e, hcol, hEmem⟩ := collect_error_of (taskResults A m) (sched i₀) t hmem hfailD
      refine ⟨e, by simp only [forwardGo, hcol], ?_⟩
      obtain ⟨s', hs', heq'⟩ := List.mem_map.mp
        (by simp only [taskResults] at hEmem; exact hEmem)
      exact ⟨m, List.mem_cons_self m ms', s', hs', heq'⟩
    · push_neg at hm
      have hmok : ∀ s ∈ m.skills, (A m.module_name s).isOk = true := by
        intro s hs
        have := hm s hs
        cases hv : (A m.module_name s).isOk with
        | true => rfl
        | false => exact absurd hv this
      have hcol := collect_eq_ok_of (taskResults A m) (sched i₀)
        (collect_isOk_of_tasks A m (sched i₀) hmok)
      have hfail' : ∃ m' ∈ ms', ∃ s ∈ m'.skills, (A m'.module_name s).isOk = false := by
        obtain ⟨m', hm', s, hs, hb⟩ := hfail
        rcases List.mem_cons.mp hm' with rfl | hmem'
        · exact absurd hb (by rw [hmok s hs]; exact Bool.noConfusion)
        · exact ⟨m', hmem', s, hs, hb⟩
      have hσ' : ∀ j, (hj : j < ms'.length) →
          (sched (i₀ + 1 + j)).Perm (List.range (ms'[j].skills.length)) := by
        intro j hj
        have := hσ (j + 1) (Nat.succ_lt_succ hj)
        have harith : i₀ + (j + 1) = i₀ + 1 + j := by omega
        rw [harith] at this
        simpa using this
      obtain ⟨e, herr, m', hm', s', hs', heq'⟩ := ih (i₀ + 1) hσ' hfail'
      exact ⟨e, by simp only [forwardGo, hcol, herr],
        m', List.mem_cons_of_mem m hm', s', hs', heq'⟩

lemma perm_flatten {α : Type} {l₁ l₂ : List (List α)} (h : l₁.Perm l₂) :
    l₁.flatten.Perm l₂.flatten := by
  induction h with
  | nil => exact List.Perm.refl _
  | cons x _ ih => simpa [List.flatten_cons] using ih.append_left x
  | swap x y l =>
    simp only [List.flatten_cons]
    rw [← List.append_assoc, ← List.append_assoc]
    exact List.perm_append_comm.append_right _
  | trans _ _ ih₁ ih₂ => exact ih₁.trans ih₂

lemma map_range_getD {α β : Type} (l : List α) (d : α) (f : α → β) :
    (List.range l.length).map (fun i => f (l.getD i d)) = l.map f := by
  induction l with
  | nil => rfl
  | cons a t ih =>
    rw [List.length_cons, List.range_succ_eq_map, List.map_cons, List.map_map]
    have hcomp : ((fun i => f ((a :: t).getD i d)) ∘ Nat.succ) = fun i => f (t.getD i d) := by
      funext i
      simp [List.getD_cons_succ]
    rw [List.getD_cons_zero, hcomp, ih]
    rfl

lemma bundleFor_count (A : Adapter) (m : Module) (σ : List Nat)
    (hσm : σ.Perm (List.range m.skills.length)) :
    (bundleFor A m σ).content_blocks.length = moduleBlockCount A m := by
  simp only [bundleFor, List.length_flatten, List.map_map]
  have hperm := (hσm.map (fun t => (taskBlocks A m t).length)).sum_eq
  rw [Function.comp_def, hperm]
  have hlen : m.skills.length = (taskResults A m).length := (taskResults_length A m).symm
  rw [hlen]
  have := map_range_getD (taskResults A m) (.ok []) (fun r => (blocksOf r).length)
  simp only [taskBlocks]
  rw [this]
  simp [taskResults, moduleBlockCount, Function.comp_def]

lemma bundleFor_name (A : Adapter) (m : Module) (σ : List Nat) :
    (bundleFor A m σ).module_name = m.module_name := rfl

lemma bundleFor_perm (A : Adapter) (m : Module) (σ₁ σ₂ : List Nat) (hp : σ₁.Perm σ₂) :
    (bundleFor A m σ₁).content_blocks.Perm (bundleFor A m σ₂).content_blocks :=
  perm_flatten (hp.map (taskBlocks A m))

lemma moduleEvents_idx (body : Nat → List Event) (i : Nat)
    (hb : ∀ e ∈ body i, ∃ t, e = Event.callStart i t ∨ e = Event.callEnd i t) :
    ∀ e ∈ moduleEvents body i, e.moduleIdx = i := by
  intro e he
  rcases List.mem_cons.mp he with rfl | he'
  · rfl
  rcases List.mem_append.mp he' with hbody | hdes
  · obtain ⟨t, ht⟩ := hb e hbody
    rcases ht with rfl | rfl <;> rfl
  · rcases List.mem_singleton.mp hdes with rfl
    rfl

lemma forwardTrace_succ (n : Nat) (body : Nat → List Event) :
    forwardTrace (n + 1) body = forwardTrace n body ++ moduleEvents body n := by
  simp [forwardTrace, List.range_succ, List.flatMap_append]

lemma mem_forwardTrace_idx (n : Nat) (body : Nat → List Event) (hbody : bodyOk n body) :
    ∀ e ∈ forwardTrace n body, e.moduleIdx < n := by
  intro e he
  rw [forwardTrace, List.mem_flatMap] at he
  obtain ⟨i, hi, hei⟩ := he
  rw [List.mem_range] at hi
  rw [moduleEvents_idx body i (hbody i hi) e hei]
  exact hi

lemma sorted_of_const {l : List Nat} {c : Nat} (h : ∀ x ∈ l, x = c) :
    l.Sorted (· ≤ ·) := by
  induction l with
  | nil => exact List.sorted_nil
  | cons a t ih =>
    rw [List.sorted_cons]
    refine ⟨?_, ih fun x hx => h x (List.mem_cons_of_mem _ hx)⟩
    intro b hb
    rw [h a (List.mem_cons_self _ _), h b (List.mem_cons_of_mem _ hb)]

lemma sorted_forwardTrace (n : Nat) (body : Nat → List Event) (hbody : bodyOk n body) :
    ((forwardTrace n body).map Event.moduleIdx).Sorted (· ≤ ·) := by
  induction n with
  | zero => exact List.sorted_nil
  | succ n ih =>
    have hbn : bodyOk n body := fun i hi => hbody i (Nat.lt_succ_of_lt hi)
    rw [forwardTrace_succ, List.map_append, List.Sorted, List.pairwise_append]
    refine ⟨ih hbn, ?_, ?_⟩
    · refine sorted_of_const (c := n) ?_
      intro x hx
      obtain ⟨e, he, rfl⟩ := List.mem_map.mp hx
      exact moduleEvents_idx body n (hbody n (Nat.lt_succ_self n)) e he
    · intro a ha b hb
      obtain ⟨e, he, rfl⟩ := List.mem_map.mp ha
      obtain ⟨e', he', rfl⟩ := List.mem_map.mp hb
      have h1 := mem_forwardTrace_idx n body hbn e he
      have h2 := moduleEvents_idx body n (hbody n (Nat.lt_succ_self n)) e' he'
      omega

lemma forwardTrace_idx_le (n : Nat) (body : Nat → List Event) (hbody : bodyOk n body)
    (p q : Nat) (hp : p < (forwardTrace n body).length)
    (hq : q < (forwardTrace n body).length) (hpq : p ≤ q) :
    ((forwardTrace n body).get ⟨p, hp⟩).moduleIdx ≤
      ((forwardTrace n body).get ⟨q, hq⟩).moduleIdx := by
  rcases Nat.lt_or_ge p q with hlt | hge
  · have hS := sorted_forwardTrace n body hbody
    have hp' : p < ((forwardTrace n body).map Event.moduleIdx).length := by
      rw [List.length_map]; exact hp
    have hq' : q < ((forwardTrace n body).map Event.moduleIdx).length := by
      rw [List.length_map]; exact hq
    have := hS.rel_get_of_lt (a := ⟨p, hp'⟩) (b := ⟨q, hq'⟩) hlt
    simpa [List.get_eq_getElem, List.getElem_map] using this
  · have : p = q := Nat.le_antisymm hpq hge
    subst this
    exact Nat.le_refl _

lemma count_eq_zero_of_idx_ne (l : List Event) (x : Event) (c : Nat)
    (hl : ∀ e ∈ l, e.moduleIdx = c) (hx : x.moduleIdx ≠ c) :
    l.count x = 0 := by
  rw [List.count_eq_zero]
  intro hmem
  exact hx (hl x hmem)

lemma count_create_moduleEvents (body : Nat → List Event) (i : Nat)
    (hb : ∀ e ∈ body i, ∃ t, e = Event.callStart i t ∨ e = Event.callEnd i t) :
    (moduleEvents body i).count (Event.poolCreate i) = 1 := by
  have hbody0 : (body i).count (Event.poolCreate i) = 0 := by
    rw [List.count_eq_zero]
    intro hmem
    obtain ⟨t, ht⟩ := hb _ hmem
    rcases ht with h | h <;> cases h
  simp [moduleEvents, List.count_cons, List.count_append, hbody0]

lemma count_destroy_moduleEvents (body : Nat → List Event) (i : Nat)
    (hb : ∀ e ∈ body i, ∃ t, e = Event.callStart i t ∨ e = Event.callEnd i t) :
    (moduleEvents body i).count (Event.poolDestroy i) = 1 := by
  have hbody0 : (body i).count (Event.poolDestroy i) = 0 := by
    rw [List.count_eq_zero]
    intro hmem
    obtain ⟨t, ht⟩ := hb _ hmem
    rcases ht with h | h <;> cases h
  simp [moduleEvents, List.count_cons, List.count_append, hbody0]

lemma forwardTrace_count_create (n : Nat) (body : Nat → List Event)
    (hbody : bodyOk n body) (i : Nat) (hi : i < n) :
    (forwardTrace n body).count (Event.poolCreate i) = 1 := by
  induction n with
  | zero => cases hi
  | succ n ih =>
    have hbn : bodyOk n body := fun j hj => hbody j (Nat.lt_succ_of_lt hj)
    rw [forwardTrace_succ, List.count_append]
    rcases Nat.lt_succ_iff_lt_or_eq.mp hi with hlt | heq
    · have hchunk : (moduleEvents body n).count (Event.poolCreate i) = 0 :=
        count_eq_zero_of_idx_ne _ _ n
          (moduleEvents_idx body n (hbody n (Nat.lt_succ_self n)))
          (by simp [Event.moduleIdx]; omega)
      rw [ih hbn hlt, hchunk]
    · subst heq
      have htr : (forwardTrace i body).count (Event.poolCreate i) = 0 := by
        rw [List.count_eq_zero]
        intro hmem
        have := mem_forwardTrace_idx i body hbn _ hmem
        simp [Event.moduleIdx] at this
      rw [htr, count_create_moduleEvents body i (hbody i (Nat.lt_succ_self i))]

lemma forwardTrace_count_destroy (n : Nat) (body : Nat → List Event)
    (hbody : bodyOk n body) (i : Nat) (hi : i < n) :
    (forwardTrace n body).count (Event.poolDestroy i) = 1 := by
  induction n with
  | zero => cases hi
  | succ n ih =>
    have hbn : bodyOk n body := fun j hj => hbody j (Nat.lt_succ_of_lt hj)
    rw [forwardTrace_succ, List.count_append]
    rcases Nat.lt_succ_iff_lt_or_eq.mp hi with hlt | heq
    · have hchunk : (moduleEvents body n).count (Event.poolDestroy i) = 0 :=
        count_eq_zero_of_idx_ne _ _ n
          (moduleEvents_idx body n (hbody n (Nat.lt_succ_self n)))
          (by simp [Event.moduleIdx]; omega)
      rw [ih hbn hlt, hchunk]
    · subst heq
      have htr : (forwardTrace i body).count (Event.poolDestroy i) = 0 := by
        rw [List.count_eq_zero]
        intro hmem
        have := mem_forwardTrace_idx i body hbn _ hmem
        simp [Event.moduleIdx] at this
      rw [htr, count_destroy_moduleEvents body i (hbody i (Nat.lt_succ_self i))]

lemma forwardGoSt_eq (A : Adapter) (sched : Nat → List Nat) (i₀ : Nat)
    (s : PyState) (ms : List Module) :
    forwardGoSt A sched i₀ s ms = (forwardGo A sched i₀ ms).map (fun bs => (s, bs)) := by
  induction ms generalizing i₀ with
  | nil => rfl
  | cons m ms' ih =>
    simp only [forwardGoSt, forwardGo, ih (i₀ + 1)]
    cases collect (taskResults A m) (sched i₀) with
    | error e => rfl
    | ok blocks =>
      cases forwardGo A sched (i₀ + 1) ms' with
      | error e => rfl
      | ok rest => rfl

/-- Claim C1: with a valid completion-order schedule and an adapter that
succeeds on every skill, forward produces exactly one bundle per input
module whose module_name equals that module's name; a module with k skills
spawns exactly k generation tasks (one adapter call per skill), and the
bundle's content-block count equals the sum of the block counts returned
by those tasks.  In particular, for skills HTML basics and CSS basics in
one module Web Basics with a stub adapter returning one text block per
skill, the bundle has module_name Web Basics and exactly two content
blocks, both of type Text. -/
theorem generateContent_block_counts (A : Adapter) (sched : Nat → List Nat)
    (modules : List Module)
    (hσ : validSched sched modules)
    (hok : ∀ m ∈ modules, ∀ s ∈ m.skills, (A m.module_name s).isOk = true) :
    (∃ r, forward A sched modules = .ok r ∧
      r.modules.length = modules.length ∧
      ∀ i, i < modules.length →
        (r.modules.getD i { module_name := "", content_blocks := [] }).module_name =
          (modules.getD i { module_name := "", skills := [] }).module_name ∧
        (taskResults A (modules.getD i { module_name := "", skills := [] })).length =
          (modules.getD i { module_name := "", skills := [] }).skills.length ∧
        (r.modules.getD i { module_name := "", content_blocks := [] }).content_blocks.length =
          moduleBlockCount A (modules.getD i { module_name := "", skills := [] })) ∧
    (∃ bundle, forward (stubAdapter 0) (fun _ => [0, 1]) webModules =
        .ok { modules := [bundle] } ∧
      bundle.module_name = "Web Basics" ∧
      bundle.content_blocks.length = 2 ∧
      bundle.content_blocks.all (fun b => b.type == "Text") = true) := by
  constructor
  · obtain ⟨bs, hbs⟩ := forwardGo_ok_of A sched 0 modules hok
    refine ⟨{ modules := bs }, by simp only [forward, hbs], ?_, ?_⟩
    · exact forwardGo_ok_length A sched 0 modules bs hbs
    · intro i hi
      have hget := forwardGo_ok_getD A sched 0 modules bs hbs i hi
      rw [Nat.zero_add] at hget
      refine ⟨?_, taskResults_length A _, ?_⟩
      · rw [hget]; rfl
      · rw [hget]
        apply bundleFor_count
        have hp := hσ i hi
        rwa [List.getD_eq_getElem modules _ hi]
  · exact ⟨{ module_name := "Web Basics", content_blocks := [htmlBlock, cssBlock] },
      rfl, rfl, rfl, rfl⟩

/-- Witness for C1 at the concrete web scenario: the stub adapter and the
skill-order schedule satisfy the hypotheses, and the conclusion holds. -/
theorem generateContent_block_counts_witness :
    validSched (fun _ => [0, 1]) webModules ∧
    (∀ m ∈ webModules, ∀ s ∈ m.skills, ((stubAdapter 0) m.module_name s).isOk = true) ∧
    ((∃ r, forward (stubAdapter 0) (fun _ => [0, 1]) webModules = .ok r ∧
      r.modules.length = webModules.length ∧
      ∀ i, i < webModules.length →
        (r.modules.getD i { module_name := "", content_blocks := [] }).module_name =
          (webModules.getD i { module_name := "", skills := [] }).module_name ∧
        (taskResults (stubAdapter 0)
            (webModules.getD i { module_name := "", skills := [] })).length =
          (webModules.getD i { module_name := "", skills := [] }).skills.length ∧
        (r.modules.getD i { module_name := "", content_blocks := [] }).content_blocks.length =
          moduleBlockCount (stubAdapter 0)
            (webModules.getD i { module_name := "", skills := [] })) ∧
    (∃ bundle, forward (stubAdapter 0) (fun _ => [0, 1]) webModules =
        .ok { modules := [bundle] } ∧
      bundle.module_name = "Web Basics" ∧
      bundle.content_blocks.length = 2 ∧
      bundle.content_blocks.all (fun b => b.type == "Text") = true)) := by
  have hσ : validSched (fun _ => [0, 1]) webModules := by
    intro i h
    have hi0 : i = 0 := by
      simp only [webModules, List.length_singleton] at h
      omega
    subst hi0
    have h2 : List.range (webModules[0].skills.length) = [0, 1] := rfl
    rw [h2]
  have hok : ∀ m ∈ webModules, ∀ s ∈ m.skills,
      ((stubAdapter 0) m.module_name s).isOk = true := by
    intro m _ s _
    rfl
  exact ⟨hσ, hok,
    generateContent_block_counts (stubAdapter 0) (fun _ => [0, 1]) webModules hσ hok⟩

/-- Claim C2: if any one skill's adapter call fails, forward fails as a
whole: it returns an error, and that error is exactly the error some
adapter call produced — propagated unchanged, with no fallback content and
no default value substituted and no retry. -/
theorem generateContent_error_propagation (A : Adapter) (sched : Nat → List Nat)
    (modules : List Module) (hσ : validSched sched modules)
    (hfail : ∃ m ∈ modules, ∃ s ∈ m.skills, (A m.module_name s).isOk = false) :
    ∃ e, forward A sched modules = .error e ∧
      ∃ m ∈ modules, ∃ s ∈ m.skills, A m.module_name s = .error e := by
  have hσ' : ∀ j, (hj : j < modules.length) →
      (sched (0 + j)).Perm (List.range (modules[j].skills.length)) := by
    intro j hj
    rw [Nat.zero_add]
    exact hσ j hj
  obtain ⟨e, herr, hwit⟩ := forwardGo_error_of A sched 0 modules hσ' hfail
  exact ⟨e, by simp only [forward, herr], hwit⟩

/-- Witness for C2: with the always-failing adapter on the web module every
hypothesis holds and forward surfaces the adapter error unchanged. -/
theorem generateContent_error_propagation_witness :
    validSched (fun _ => [0, 1]) webModules ∧
    (∃ m ∈ webModules, ∃ s ∈ m.skills, (errorAdapter m.module_name s).isOk = false) ∧
    (∃ e, forward errorAdapter (fun _ => [0, 1]) webModules = .error e ∧
      ∃ m ∈ webModules, ∃ s ∈ m.skills, errorAdapter m.module_name s = .error e) := by
  have hσ : validSched (fun _ => [0, 1]) webModules := by
    intro i h
    have hi0 : i = 0 := by
      simp only [webModules, List.length_singleton] at h
      omega
    subst hi0
    have h2 : List.range (webModules[0].skills.length) = [0, 1] := rfl
    rw [h2]
  have hfail : ∃ m ∈ webModules, ∃ s ∈ m.skills,
      (errorAdapter m.module_name s).isOk = false := by
    refine ⟨{ module_name := "Web Basics", skills := ["HTML basics", "CSS basics"] },
      ?_, "HTML basics", ?_, rfl⟩
    · simp [webModules]
    · simp
  exact ⟨hσ, hfail,
    generateContent_error_propagation errorAdapter (fun _ => [0, 1]) webModules hσ hfail⟩

/-- Claim C3: on success, the bundles of the result are in exactly the
order of the input module list, whatever completion order the concurrent
tasks had: the name sequence of the output equals the name sequence of the
input. -/
theorem generateContent_module_order (A : Adapter) (sched : Nat → List Nat)
    (modules : List Module) (r : CourseContentResult)
    (h : forward A sched modules = .ok r) :
    r.modules.map ModuleContentBundle.module_name = modules.map Module.module_name := by
  simp only [forward] at h
  cases hg : forwardGo A sched 0 modules with
  | error e => rw [hg] at h; cases h
  | ok bs =>
    rw [hg] at h
    cases h
    exact forwardGo_ok_names A sched 0 modules bs hg

/-- Witness for C3 at the web scenario with a reversed completion order:
the module order of the result still matches the input order. -/
theorem generateContent_module_order_witness :
    forward (stubAdapter 0) (fun _ => [1, 0]) webModules = .ok webResultRev ∧
    webResultRev.modules.map ModuleContentBundle.module_name =
      webModules.map Module.module_name :=
  ⟨rfl, generateContent_module_order (stubAdapter 0) (fun _ => [1, 0]) webModules
    webResultRev rfl⟩

/-- Claim C6: two runs over the same module list with the same deterministic
adapter but different completion orders agree on the module-name sequence,
and for each module the two bundles hold the same multiset of content
blocks — only the order within a bundle may differ. -/
theorem generateContent_deterministic_up_to_order (A : Adapter)
    (sched₁ sched₂ : Nat → List Nat) (modules : List Module)
    (r₁ r₂ : CourseContentResult)
    (hσ₁ : validSched sched₁ modules) (hσ₂ : validSched sched₂ modules)
    (h₁ : forward A sched₁ modules = .ok r₁) (h₂ : forward A sched₂ modules = .ok r₂) :
    r₁.modules.map ModuleContentBundle.module_name =
      r₂.modules.map ModuleContentBundle.module_name ∧
    ∀ i, i < modules.length →
      ((r₁.modules.getD i { module_name := "", content_blocks := [] }).content_blocks).Perm
        ((r₂.modules.getD i { module_name := "", content_blocks := [] }).content_blocks) := by
  simp only [forward] at h₁ h₂
  cases hg₁ : forwardGo A sched₁ 0 modules with
  | error e => rw [hg₁] at h₁; cases h₁
  | ok bs₁ =>
    rw [hg₁] at h₁
    cases h₁
    cases hg₂ : forwardGo A sched₂ 0 modules with
    | error e => rw [hg₂] at h₂; cases h₂
    | ok bs₂ =>
      rw [hg₂] at h₂
      cases h₂
      constructor
      · show bs₁.map ModuleContentBundle.module_name = bs₂.map ModuleContentBundle.module_name
        rw [forwardGo_ok_names A sched₁ 0 modules bs₁ hg₁,
          forwardGo_ok_names A sched₂ 0 modules bs₂ hg₂]
      · intro i hi
        have g₁ := forwardGo_ok_getD A sched₁ 0 modules bs₁ hg₁ i hi
        have g₂ := forwardGo_ok_getD A sched₂ 0 modules bs₂ hg₂ i hi
        rw [Nat.zero_add] at g₁ g₂
        show ((bs₁.getD i { module_name := "", content_blocks := [] }).content_blocks).Perm
          ((bs₂.getD i { module_name := "", content_blocks := [] }).content_blocks)
        rw [g₁, g₂]
        apply bundleFor_perm
        have p₁ := hσ₁ i hi
        have p₂ := hσ₂ i hi
        exact p₁.trans p₂.symm

/-- Witness for C6: the web scenario run once with completion order 0,1 and
once with 1,0 gives the same module-name sequence and per-module block
multisets. -/
theorem generateContent_deterministic_up_to_order_witness :
    validSched (fun _ => [0, 1]) webModules ∧
    validSched (fun _ => [1, 0]) webModules ∧
    forward (stubAdapter 0) (fun _ => [0, 1]) webModules = .ok webResult ∧
    forward (stubAdapter 0) (fun _ => [1, 0]) webModules = .ok webResultRev ∧
    (webResult.modules.map ModuleContentBundle.module_name =
      webResultRev.modules.map ModuleContentBundle.module_name ∧
    ∀ i, i < webModules.length →
      ((webResult.modules.getD i
          { module_name := "", content_blocks := [] }).content_blocks).Perm
        ((webResultRev.modules.getD i
          { module_name := "", content_blocks := [] }).content_blocks)) := by
  have hσ₁ : validSched (fun _ => [0, 1]) webModules := by
    intro i h
    have hi0 : i = 0 := by
      simp only [webModules, List.length_singleton] at h
      omega
    subst hi0
    have h2 : List.range (webModules[0].skills.length) = [0, 1] := rfl
    rw [h2]
  have hσ₂ : validSched (fun _ => [1, 0]) webModules := by
    intro i h
    have hi0 : i = 0 := by
      simp only [webModules, List.length_singleton] at h
      omega
    subst hi0
    have h2 : List.range (webModules[0].skills.length) = [0, 1] := rfl
    rw [h2]
    exact List.Perm.swap 0 1 []
  exact ⟨hσ₁, hσ₂, rfl, rfl,
    generateContent_deterministic_up_to_order (stubAdapter 0) (fun _ => [0, 1])
      (fun _ => [1, 0]) webModules webResult webResultRev hσ₁ hσ₂ rfl rfl⟩

/-- Claim C4: every state the worker pool of a module with k tasks can
reach keeps at most maxWorkers tasks in flight, and maxWorkers is the
constant 5 of source line 177, independent of the module and of the skill
count k. -/
theorem pool_concurrency_bound (k : Nat) (s : PoolState) (h : PoolReachable k s) :
    s.running.length ≤ maxWorkers ∧ maxWorkers = 5 := by
  refine ⟨?_, rfl⟩
  induction h with
  | refl => simp [initPool]
  | tail _ step ih =>
    cases step with
    | start i rest s' hpend hlt =>
      simp only [List.length_append, List.length_singleton]
      omega
    | finish i s' hmem =>
      have herase := List.length_erase_of_mem hmem
      simp only [herase]
      omega

/-- Witness for C4: with seven tasks, after one task starts, the pool state
is reachable and the bound holds. -/
theorem pool_concurrency_bound_witness :
    PoolReachable 7 { pending := [1, 2, 3, 4, 5, 6], running := [0], done := [] } ∧
    ({ pending := [1, 2, 3, 4, 5, 6], running := [0], done := [] } :
        PoolState).running.length ≤ maxWorkers ∧ maxWorkers = 5 := by
  have hstep : PoolStep (initPool 7)
      { pending := [1, 2, 3, 4, 5, 6], running := [0], done := [] } := by
    have h := PoolStep.start 0 [1, 2, 3, 4, 5, 6] (initPool 7) (by decide) (by decide)
    exact h
  have hreach : PoolReachable 7
      { pending := [1, 2, 3, 4, 5, 6], running := [0], done := [] } :=
    Relation.ReflTransGen.single hstep
  exact ⟨hreach, pool_concurrency_bound 7 _ hreach⟩

/-- Claim C5: in every trace of a forward run whose per-module pool
interleavings are well-formed and complete, (a) every event of an earlier
module precedes every event of a later module (so all per-skill tasks of a
module complete before any task of the next module is submitted — a
synchronization barrier per module), (b) a fresh pool is created exactly
once and torn down exactly once for each module, and (c) before any call
of module j starts, the end event of every task of every earlier module i
has already occurred. -/
theorem module_barrier (n : Nat) (skillCount : Nat → Nat) (body : Nat → List Event)
    (hbody : bodyOk n body) (hcomp : bodyComplete n skillCount body) :
    (∀ p q (hp : p < (forwardTrace n body).length)
        (hq : q < (forwardTrace n body).length),
        ((forwardTrace n body).get ⟨p, hp⟩).moduleIdx <
          ((forwardTrace n body).get ⟨q, hq⟩).moduleIdx → p < q) ∧
    (∀ i, i < n → (forwardTrace n body).count (Event.poolCreate i) = 1 ∧
        (forwardTrace n body).count (Event.poolDestroy i) = 1) ∧
    (∀ q (hq : q < (forwardTrace n body).length) (j t' : Nat),
        (forwardTrace n body).get ⟨q, hq⟩ = Event.callStart j t' →
        ∀ i, i < j → ∀ t, t < skillCount i →
          ∃ p, ∃ hp : p < (forwardTrace n body).length,
            p < q ∧ (forwardTrace n body).get ⟨p, hp⟩ = Event.callEnd i t) := by
  refine ⟨?_, ?_, ?_⟩
  · intro p q hp hq hlt
    by_contra hle
    push_neg at hle
    have := forwardTrace_idx_le n body hbody q p hq hp hle
    omega
  · intro i hi
    exact ⟨forwardTrace_count_create n body hbody i hi,
      forwardTrace_count_destroy n body hbody i hi⟩
  · intro q hq j t' hqe i hij t ht
    have hjn : j < n := by
      have hmemq : (forwardTrace n body).get ⟨q, hq⟩ ∈ forwardTrace n body := by
        rw [List.get_eq_getElem]
        exact List.getElem_mem hq
      have hidx := mem_forwardTrace_idx n body hbody _ hmemq
      rw [hqe] at hidx
      simpa [Event.moduleIdx] using hidx
    have hin : i < n := Nat.lt_trans hij hjn
    have hmem : Event.callEnd i t ∈ forwardTrace n body := by
      rw [forwardTrace, List.mem_flatMap]
      refine ⟨i, List.mem_range.mpr hin, ?_⟩
      exact List.mem_cons_of_mem _ (List.mem_append.mpr (Or.inl (hcomp i hin t ht)))
    obtain ⟨p, hp, hpe⟩ := List.mem_iff_getElem.mp hmem
    have hpe' : (forwardTrace n body).get ⟨p, hp⟩ = Event.callEnd i t := by
      rw [List.get_eq_getElem]
      exact hpe
    refine ⟨p, hp, ?_, hpe'⟩
    by_contra hge
    push_neg at hge
    have hle := forwardTrace_idx_le n body hbody q p hq hp hge
    rw [hqe, hpe'] at hle
    simp only [Event.moduleIdx] at hle
    omega

/-- Witness for C5: two modules of one skill each, every pool running its
single call to completion; the trace hypotheses hold and the barrier
properties follow. -/
theorem module_barrier_witness :
    bodyOk 2 demoBody ∧ bodyComplete 2 (fun _ => 1) demoBody ∧
    ((∀ p q (hp : p < (forwardTrace 2 demoBody).length)
        (hq : q < (forwardTrace 2 demoBody).length),
        ((forwardTrace 2 demoBody).get ⟨p, hp⟩).moduleIdx <
          ((forwardTrace 2 demoBody).get ⟨q, hq⟩).moduleIdx → p < q) ∧
    (∀ i, i < 2 → (forwardTrace 2 demoBody).count (Event.poolCreate i) = 1 ∧
        (forwardTrace 2 demoBody).count (Event.poolDestroy i) = 1) ∧
    (∀ q (hq : q < (forwardTrace 2 demoBody).length) (j t' : Nat),
        (forwardTrace 2 demoBody).get ⟨q, hq⟩ = Event.callStart j t' →
        ∀ i, i < j → ∀ t, t < (fun _ => 1 : Nat → Nat) i →
          ∃ p, ∃ hp : p < (forwardTrace 2 demoBody).length,
            p < q ∧ (forwardTrace 2 demoBody).get ⟨p, hp⟩ = Event.callEnd i t)) := by
  have hbody : bodyOk 2 demoBody := by
    intro i _ e he
    simp only [demoBody, List.mem_cons, List.not_mem_nil, or_false] at he
    rcases he with rfl | rfl
    · exact ⟨0, Or.inl rfl⟩
    · exact ⟨0, Or.inr rfl⟩
  have hcomp : bodyComplete 2 (fun _ => 1) demoBody := by
    intro i _ t ht
    have ht1 : t < 1 := ht
    have ht0 : t = 0 := by omega
    subst ht0
    simp [demoBody]
  exact ⟨hbody, hcomp, module_barrier 2 (fun _ => 1) demoBody hbody hcomp⟩

/-- Counterexample to claim C7: the system accepts a QuestionContentOut
whose options list is empty and whose correct answer is not among the
options — the pydantic model of lines 117-123 declares field types only and
no validator relates correctAnswer to options or forbids empty options. -/
theorem question_invariant_counterexample :
    validateQuestion "Quiz" "Pick one" [] "A" none 0 = .ok badQuestion ∧
    badQuestion.options = [] ∧
    badQuestion.correct_answer ∉ badQuestion.options := by
  refine ⟨rfl, rfl, ?_⟩
  simp [badQuestion, ContentBlock.options]

/-- Claim C7 as amended: accepting a QuestionContentOut imposes no
constraint between the options and the correct answer and does not require
the options to be non-empty; every well-typed field assignment is accepted
unchanged. -/
theorem question_validation_unconstrained (title question_text : String)
    (options : List String) (correct_answer : String) (user_answer : Option String)
    (now : Nat) :
    (validateQuestion title question_text options correct_answer user_answer now).isOk
        = true ∧
    validateQuestion title question_text options correct_answer user_answer now =
      .ok (.question (defaultMeta now) title question_text options correct_answer
        user_answer) :=
  ⟨rfl, rfl⟩

/-- Counterexample to claim C8: the owning-module reference does not refer
to the module a block was generated for.  In a run over two distinct
modules every block carries the constant default moduleId 1 (lines
102, 169-197 never set it), so the blocks of Module A and Module B hold
identical owning-module references although their owning modules differ. -/
theorem module_reference_counterexample :
    forward (stubAdapter 0) (fun _ => [0]) twoModules =
      .ok { modules := [{ module_name := "Module A", content_blocks := [s1Block] },
        { module_name := "Module B", content_blocks := [s2Block] }] } ∧
    s1Block.meta.module_id = some 1 ∧
    s2Block.meta.module_id = some 1 ∧
    "Module A" ≠ "Module B" := by
  refine ⟨rfl, rfl, rfl, ?_⟩
  decide

/-- Claim C8 as amended: every content block carries bookkeeping metadata
(identifier, completion flag, owning-module reference, creation and update
timestamps) defaulted by the system rather than supplied by the model —
whenever the adapter returns blocks carrying the system defaults, every
block of every bundle of the result carries exactly those defaults; in
particular the owning-module reference is the constant default 1 for every
block and does not reference the module the block was generated for. -/
theorem metadata_defaulted (A : Adapter) (sched : Nat → List Nat)
    (modules : List Module) (now : Nat) (r : CourseContentResult)
    (hA : ∀ name s, ∀ b ∈ blocksOf (A name s), b.meta = defaultMeta now)
    (hr : forward A sched modules = .ok r) :
    ∀ bundle ∈ r.modules, ∀ b ∈ bundle.content_blocks,
      b.meta = defaultMeta now ∧ b.meta.module_id = some 1 := by
  simp only [forward] at hr
  cases hg : forwardGo A sched 0 modules with
  | error e => rw [hg] at hr; cases hr
  | ok bs =>
    rw [hg] at hr
    cases hr
    intro bundle hbundle b hb
    obtain ⟨i, hi, hbi⟩ := List.mem_iff_getElem.mp hbundle
    have hlen : bs.length = modules.length := forwardGo_ok_length A sched 0 modules bs hg
    have hi' : i < modules.length := by rw [← hlen]; exact hi
    have hgd := forwardGo_ok_getD A sched 0 modules bs hg i hi'
    rw [Nat.zero_add] at hgd
    rw [List.getD_eq_getElem bs _ hi, hbi] at hgd
    rw [hgd] at hb
    simp only [bundleFor] at hb
    rw [List.mem_flatten] at hb
    obtain ⟨L, hL, hbL⟩ := hb
    obtain ⟨t, htσ, rfl⟩ := List.mem_map.mp hL
    by_cases hlt : t < (taskResults A (modules.getD i { module_name := "", skills := [] })).length
    · rw [taskBlocks, List.getD_eq_getElem _ _ hlt] at hbL
      have hmem2 : (taskResults A (modules.getD i { module_name := "", skills := [] }))[t] ∈
          taskResults A (modules.getD i { module_name := "", skills := [] }) :=
        List.getElem_mem hlt
      simp only [taskResults] at hmem2
      obtain ⟨s, hs, heq⟩ := List.mem_map.mp hmem2
      simp only [taskResults] at hbL
      rw [← heq] at hbL
      have hmeta := hA (modules.getD i { module_name := "", skills := [] }).module_name s b hbL
      exact ⟨hmeta, by rw [hmeta]; rfl⟩
    · rw [taskBlocks, List.getD_eq_default _ _ (Nat.le_of_not_lt hlt)] at hbL
      simp [blocksOf] at hbL

/-- Witness for C8's amended claim: the stub adapter hands back blocks
carrying exactly the defaults, and in the two-module run every resulting
block carries the defaults with moduleId 1. -/
theorem metadata_defaulted_witness :
    (∀ name s, ∀ b ∈ blocksOf ((stubAdapter 0) name s), b.meta = defaultMeta 0) ∧
    forward (stubAdapter 0) (fun _ => [0]) twoModules =
      .ok { modules := [{ module_name := "Module A", content_blocks := [s1Block] },
        { module_name := "Module B", content_blocks := [s2Block] }] } ∧
    (∀ bundle ∈ ({ modules := [{ module_name := "Module A", content_blocks := [s1Block] },
          { module_name := "Module B", content_blocks := [s2Block] }] } :
            CourseContentResult).modules,
      ∀ b ∈ bundle.content_blocks,
        b.meta = defaultMeta 0 ∧ b.meta.module_id = some 1) := by
  have hA : ∀ name s, ∀ b ∈ blocksOf ((stubAdapter 0) name s), b.meta = defaultMeta 0 := by
    intro name s b hb
    simp only [stubAdapter, blocksOf, List.mem_cons, List.not_mem_nil, or_false] at hb
    subst hb
    rfl
  exact ⟨hA, rfl,
    metadata_defaulted (stubAdapter 0) (fun _ => [0]) twoModules 0 _ hA rfl⟩

/-- Claim C9: forward on an empty module list returns a result with an
empty bundle list; a single module with an empty skill list yields one
bundle carrying the module's name and no content blocks, and no adapter
call is made for it — the task list is empty and the result does not
depend on the adapter at all. -/
theorem generateContent_empty (A A' : Adapter) (sched : Nat → List Nat)
    (name : String) (hs : sched 0 = []) :
    forward A sched [] = .ok { modules := [] } ∧
    forward A sched [{ module_name := name, skills := [] }] =
      .ok { modules := [{ module_name := name, content_blocks := [] }] } ∧
    taskResults A { module_name := name, skills := [] } = [] ∧
    forward A sched [{ module_name := name, skills := [] }] =
      forward A' sched [{ module_name := name, skills := [] }] := by
  have h2 : ∀ B : Adapter, forward B sched [{ module_name := name, skills := [] }] =
      .ok { modules := [{ module_name := name, content_blocks := [] }] } := by
    intro B
    simp only [forward, forwardGo, taskResults, List.map_nil, hs, collect]
  exact ⟨rfl, h2 A, rfl, (h2 A).trans (h2 A').symm⟩

/-- Witness for C9: with the empty completion order, the stub adapter and
the always-failing adapter produce the same result on a skill-less module,
so no adapter call can have been made. -/
theorem generateContent_empty_witness :
    (fun _ : Nat => ([] : List Nat)) 0 = [] ∧
    (forward (stubAdapter 0) (fun _ => []) [] = .ok { modules := [] } ∧
    forward (stubAdapter 0) (fun _ => []) [{ module_name := "Empty", skills := [] }] =
      .ok { modules := [{ module_name := "Empty", content_blocks := [] }] } ∧
    taskResults (stubAdapter 0) { module_name := "Empty", skills := [] } = [] ∧
    forward (stubAdapter 0) (fun _ => []) [{ module_name := "Empty", skills := [] }] =
      forward errorAdapter (fun _ => []) [{ module_name := "Empty", skills := [] }]) :=
  ⟨rfl, generateContent_empty (stubAdapter 0) errorAdapter (fun _ => []) "Empty" rfl⟩

/-- Claim C10: forward never mutates its input: threading the module heap
through the state-passing embedding of the loop, a successful run leaves
every input module's module_name and skills unchanged, while computing the
same result as forward. -/
theorem generateContent_preserves_input (A : Adapter) (sched : Nat → List Nat)
    (s s' : PyState) (r : CourseContentResult)
    (h : forwardSt A sched s = .ok (s', r)) :
    s'.heap.map Module.module_name = s.heap.map Module.module_name ∧
    s'.heap.map Module.skills = s.heap.map Module.skills ∧
    forward A sched s.heap = .ok r := by
  simp only [forwardSt, forwardGoSt_eq] at h
  cases hg : forwardGo A sched 0 s.heap with
  | error e =>
    rw [hg] at h
    simp [Except.map] at h
  | ok bs =>
    rw [hg] at h
    simp only [Except.map] at h
    cases h
    exact ⟨rfl, rfl, by simp only [forward, hg]⟩

/-- Witness for C10 at the web scenario: the heap after the run equals the
input heap and the computed result matches forward. -/
theorem generateContent_preserves_input_witness :
    forwardSt (stubAdapter 0) (fun _ => [0, 1]) { heap := webModules } =
      .ok ({ heap := webModules }, webResult) ∧
    (({ heap := webModules } : PyState).heap.map Module.module_name =
        ({ heap := webModules } : PyState).heap.map Module.module_name ∧
      ({ heap := webModules } : PyState).heap.map Module.skills =
        ({ heap := webModules } : PyState).heap.map Module.skills ∧
      forward (stubAdapter 0) (fun _ => [0, 1])
        ({ heap := webModules } : PyState).heap = .ok webResult) :=
  ⟨rfl, generateContent_preserves_input (stubAdapter 0) (fun _ => [0, 1])
    { heap := webModules } { heap := webModules } webResult rfl⟩

end RebootedAI
